import Mathlib

/-!
Verification development for the block/undo storage engine of this
repository (block storage: `SaveBlockToDisk`, `ReadBlockFromDisk`,
`UndoReadFromDisk`, `ThreadImport` declared in src/src/node/blockstorage.h).
The function bodies are not part of the shipped sources, so every
operational definition below is modelled from the specification document
(spec.md), faithful to its words; the doc comment of each such definition
records this.
-/

/-- Modelled from the spec: bytes are modelled as natural numbers
(a real byte is `< 256`); a serialized payload is a list of bytes. -/
def Byte := Nat

/-- Modelled from the spec (section 3, Stored Record): the 4-byte
little-endian encoding of a payload length. -/
def encodeLE32 (n : Nat) : List Nat :=
  [n % 256, n / 256 % 256, n / 65536 % 256, n / 16777216 % 256]

/-- Modelled from the spec (section 3, Stored Record): decoding of the
4-byte little-endian length field.  Any list that is not exactly four
bytes decodes to 0 (such a header is never produced by a save). -/
def decodeLE32 (bs : List Nat) : Nat :=
  match bs with
  | [a, b, c, d] => a + 256 * b + 65536 * c + 16777216 * d
  | _ => 0

theorem encodeLE32_length (n : Nat) : (encodeLE32 n).length = 4 := rfl

theorem decodeLE32_encodeLE32 (n : Nat) (h : n < 4294967296) :
    decodeLE32 (encodeLE32 n) = n := by
  simp only [encodeLE32, decodeLE32]
  omega

/-- Modelled from the spec (section 3): the File-Position Descriptor,
`{file_index, byte_offset}`, pure data, equal iff both fields match.
Named after the source struct `FlatFilePos`. -/
structure FlatFilePos where
  fileIndex : Nat
  byteOffset : Nat
deriving DecidableEq, Repr

/-- Modelled from the spec (section 4.1): a Flat File Set — the numbered
sequence of append-only files of one record kind, with the per-file size
ceiling.  `closed` are the rotated-away files (indices `0..closed.length-1`),
`active` is the currently writable file (index `closed.length`). -/
structure FlatFileSet where
  ceiling : Nat
  closed : List (List Nat)
  active : List Nat
deriving DecidableEq, Repr

/-- The whole numbered file sequence of a set, index `i` being file `i`. -/
def FlatFileSet.files (s : FlatFileSet) : List (List Nat) :=
  s.closed ++ [s.active]

/-- Modelled from the spec (section 4.1, `append`): write the bytes at the
current offset of the active file; if doing so would exceed the per-file
size ceiling, first rotate (close the current file, increment the file
index, start the new file at offset 0), then write.  Returns the new set
and the descriptor of the position where writing began. -/
def FlatFileSet.append (s : FlatFileSet) (bytes : List Nat) :
    FlatFileSet × FlatFilePos :=
  if s.active.length + bytes.length > s.ceiling then
    (⟨s.ceiling, s.closed ++ [s.active], bytes⟩, ⟨s.closed.length + 1, 0⟩)
  else
    (⟨s.ceiling, s.closed, s.active ++ bytes⟩,
      ⟨s.closed.length, s.active.length⟩)

/-- Sequence of appends; returns the final set and the descriptors in
order. -/
def appendAll (s : FlatFileSet) (rs : List (List Nat)) :
    FlatFileSet × List FlatFilePos :=
  match rs with
  | [] => (s, [])
  | r :: rs' =>
    let out := s.append r
    let rest := appendAll out.1 rs'
    (rest.1, out.2 :: rest.2)

/-- Modelled from the spec (section 4.1, `read_at`): open the file named
by the descriptor, seek to its offset, read exactly `n` bytes; `none`
models the `TruncatedRead` failure when fewer bytes are available. -/
def readAt (s : FlatFileSet) (pos : FlatFilePos) (n : Nat) :
    Option (List Nat) :=
  match s.files.get? pos.fileIndex with
  | none => none
  | some f =>
    if pos.byteOffset + n ≤ f.length then
      some ((f.drop pos.byteOffset).take n)
    else none

/-- Modelled from the spec (section 3, Stored Record): the on-disk
envelope `[network_magic (4 bytes)][payload_length (4 bytes LE)][payload]`. -/
def mkRecord (magic payload : List Nat) : List Nat :=
  magic ++ encodeLE32 payload.length ++ payload

/-- The fault kinds named by the spec (sections 4.2 and 7). -/
inductive ReadError where
  | WrongNetworkMagic
  | TruncatedRead
  | DeserializationError
deriving DecidableEq, Repr

/-- Modelled from the spec (section 4.2, `load`): read the 8-byte envelope
header at the descriptor, validate the magic tag against the configured
network value (fail with `WrongNetworkMagic` otherwise), read
`payload_length` more bytes, and deserialize (`dec` is the structural
deserializer of the record kind; its failure is `DeserializationError`).
On success the payload bytes are returned. -/
def loadRecord (magic : List Nat) (dec : List Nat → Bool) (s : FlatFileSet)
    (pos : FlatFilePos) : Except ReadError (List Nat) :=
  match readAt s pos 8 with
  | none => Except.error ReadError.TruncatedRead
  | some hdr =>
    if hdr.take 4 = magic then
      match readAt s ⟨pos.fileIndex, pos.byteOffset + 8⟩ (decodeLE32 (hdr.drop 4)) with
      | none => Except.error ReadError.TruncatedRead
      | some payload =>
        if dec payload then Except.ok payload
        else Except.error ReadError.DeserializationError
    else Except.error ReadError.WrongNetworkMagic

/-- Modelled from the spec (sections 4.2 and 4.3): a store (block store or
undo store) is a Flat File Set together with the configured network magic
and the structural deserializer of its record kind. -/
structure RecordStore where
  magic : List Nat
  dec : List Nat → Bool
  ffs : FlatFileSet

/-- Modelled from the spec (section 4.2, `save`): wrap the serialized
block in the Stored Record envelope and append it; named after the source
declaration `SaveBlockToDisk` (src/src/node/blockstorage.h). -/
def SaveBlockToDisk (st : RecordStore) (b : List Nat) :
    RecordStore × FlatFilePos :=
  let out := st.ffs.append (mkRecord st.magic b)
  (⟨st.magic, st.dec, out.1⟩, out.2)

/-- Modelled from the spec (section 4.2, `load`); named after the source
declaration `ReadBlockFromDisk` on a raw `FlatFilePos`
(src/src/node/blockstorage.h). -/
def ReadBlockFromDisk (st : RecordStore) (pos : FlatFilePos) :
    Except ReadError (List Nat) :=
  loadRecord st.magic st.dec st.ffs pos

/-- Modelled from the spec (section 3): the external block-index entry,
which records the File-Position Descriptors of the block record and of the
undo record of one block; named after the source class `CBlockIndex`. -/
structure CBlockIndex where
  blockPos : FlatFilePos
  undoPos : FlatFilePos
deriving DecidableEq, Repr

/-- The descriptor-extraction accessor of a block-index entry. -/
def CBlockIndex.GetBlockPos (idx : CBlockIndex) : FlatFilePos :=
  idx.blockPos

/-- Modelled from the spec (section 4.2): the convenience overload of
`ReadBlockFromDisk` that accepts a block-index entry instead of a raw
descriptor, extracting the descriptor from it
(src/src/node/blockstorage.h, overload on `const CBlockIndex *`). -/
def ReadBlockFromDiskOfIndex (st : RecordStore) (idx : CBlockIndex) :
    Except ReadError (List Nat) :=
  ReadBlockFromDisk st idx.GetBlockPos

/-- Modelled from the spec (section 4.3, `save`): the Undo Store save,
identical envelope/append discipline on its own Flat File Set. -/
def SaveUndoToDisk (st : RecordStore) (u : List Nat) :
    RecordStore × FlatFilePos :=
  let out := st.ffs.append (mkRecord st.magic u)
  (⟨st.magic, st.dec, out.1⟩, out.2)

/-- Modelled from the spec (section 4.3, `load`): the Undo Store load,
taking the block-index entry that carries the undo descriptor; named after
the source declaration `UndoReadFromDisk` (src/src/node/blockstorage.h). -/
def UndoReadFromDisk (st : RecordStore) (idx : CBlockIndex) :
    Except ReadError (List Nat) :=
  loadRecord st.magic st.dec st.ffs idx.undoPos

/-- The public boolean face of `ReadBlockFromDisk` on a raw descriptor:
the source signature returns only `bool` (src/src/node/blockstorage.h,
lines 30-31). -/
def ReadBlockFromDiskB (st : RecordStore) (pos : FlatFilePos) : Bool :=
  match ReadBlockFromDisk st pos with
  | Except.ok _ => true
  | Except.error _ => false

/-- The public boolean face of the block-index overload of
`ReadBlockFromDisk` (src/src/node/blockstorage.h, lines 32-33). -/
def ReadBlockFromDiskOfIndexB (st : RecordStore) (idx : CBlockIndex) : Bool :=
  match ReadBlockFromDiskOfIndex st idx with
  | Except.ok _ => true
  | Except.error _ => false

/-- The public boolean face of `UndoReadFromDisk`
(src/src/node/blockstorage.h, line 34). -/
def UndoReadFromDiskB (st : RecordStore) (idx : CBlockIndex) : Bool :=
  match UndoReadFromDisk st idx with
  | Except.ok _ => true
  | Except.error _ => false

/-- Bytes visible at offset `k` past a freshly appended record: whichever
branch `append` took, reading at the returned descriptor shifted by `k`
yields the corresponding slice of the appended bytes. -/
theorem readAt_append_off (f : FlatFileSet) (e : List Nat) (k n : Nat)
    (h : k + n ≤ e.length) :
    readAt (f.append e).1
      ⟨(f.append e).2.fileIndex, (f.append e).2.byteOffset + k⟩ n =
      some ((e.drop k).take n) := by
  by_cases hrot : f.active.length + e.length > f.ceiling
  · have happ : f.append e =
        (⟨f.ceiling, f.closed ++ [f.active], e⟩, ⟨f.closed.length + 1, 0⟩) := by
      unfold FlatFileSet.append
      rw [if_pos hrot]
    rw [happ]
    unfold readAt FlatFileSet.files
    dsimp only
    have hl : (f.closed ++ [f.active]).length = f.closed.length + 1 := by simp
    have hget : ((f.closed ++ [f.active]) ++ [e]).get? (f.closed.length + 1) =
        some e := by
      rw [← hl]
      exact List.get?_concat_length _ _
    rw [hget]
    dsimp only
    simp only [Nat.zero_add]
    rw [if_pos h]
  · have happ : f.append e =
        (⟨f.ceiling, f.closed, f.active ++ e⟩,
          ⟨f.closed.length, f.active.length⟩) := by
      unfold FlatFileSet.append
      rw [if_neg hrot]
    rw [happ]
    unfold readAt FlatFileSet.files
    dsimp only
    have hget : (f.closed ++ [f.active ++ e]).get? f.closed.length =
        some (f.active ++ e) := List.get?_concat_length _ _
    rw [hget]
    dsimp only
    have hle : f.active.length + k + n ≤ (f.active ++ e).length := by
      simp only [List.length_append]
      omega
    rw [if_pos hle]
    have hdrop : (f.active ++ e).drop (f.active.length + k) = e.drop k := by
      rw [List.drop_append_eq_append_drop]
      rw [List.drop_eq_nil_of_le (by omega)]
      rw [List.nil_append]
      congr 1
      omega
    rw [hdrop]

/-- Slices of the stored-record envelope. -/
theorem mkRecord_length (magic b : List Nat) (hm : magic.length = 4) :
    (mkRecord magic b).length = 8 + b.length := by
  simp [mkRecord, hm, encodeLE32]
  omega

theorem mkRecord_take8 (magic b : List Nat) (hm : magic.length = 4) :
    (mkRecord magic b).take 8 = magic ++ encodeLE32 b.length := by
  unfold mkRecord
  rw [List.take_append_of_le_length (by simp [hm, encodeLE32])]
  apply List.take_of_length_le
  simp [hm, encodeLE32]

theorem mkRecord_drop8 (magic b : List Nat) (hm : magic.length = 4) :
    (mkRecord magic b).drop 8 = b := by
  unfold mkRecord
  rw [List.drop_append_eq_append_drop]
  rw [List.drop_eq_nil_of_le (by simp [hm, encodeLE32])]
  rw [List.nil_append]
  have : 8 - (magic ++ encodeLE32 b.length).length = 0 := by
    simp [hm, encodeLE32]
  rw [this, List.drop_zero]

/-- Round trip of the stored-record envelope: loading at the descriptor a
fresh append of `mkRecord magic b` returned yields exactly `b`, whenever
the magic is 4 bytes, the payload length fits the 4-byte length field and
the payload deserializes. -/
theorem loadRecord_append (magic : List Nat) (dec : List Nat → Bool)
    (f : FlatFileSet) (b : List Nat) (hm : magic.length = 4)
    (hb : b.length < 4294967296) (hdec : dec b = true) :
    loadRecord magic dec (f.append (mkRecord magic b)).1
      (f.append (mkRecord magic b)).2 = Except.ok b := by
  have hlen := mkRecord_length magic b hm
  have hhdr : readAt (f.append (mkRecord magic b)).1
      (f.append (mkRecord magic b)).2 8 =
      some (magic ++ encodeLE32 b.length) := by
    have h0 := readAt_append_off f (mkRecord magic b) 0 8 (by omega)
    rw [List.drop_zero, mkRecord_take8 magic b hm] at h0
    simpa using h0
  have hpay : readAt (f.append (mkRecord magic b)).1
      ⟨(f.append (mkRecord magic b)).2.fileIndex,
        (f.append (mkRecord magic b)).2.byteOffset + 8⟩ b.length =
      some b := by
    have h8 := readAt_append_off f (mkRecord magic b) 8 b.length (by omega)
    rw [mkRecord_drop8 magic b hm, List.take_length] at h8
    exact h8
  unfold loadRecord
  rw [hhdr]
  dsimp only
  have htk : (magic ++ encodeLE32 b.length).take 4 = magic := by
    rw [List.take_append_of_le_length (by omega)]
    exact List.take_of_length_le (by omega)
  have hdr4 : (magic ++ encodeLE32 b.length).drop 4 =
      encodeLE32 b.length := by
    rw [List.drop_append_eq_append_drop]
    rw [List.drop_eq_nil_of_le (by omega)]
    rw [List.nil_append]
    have h40 : 4 - magic.length = 0 := by omega
    rw [h40, List.drop_zero]
  rw [htk, if_pos rfl, hdr4, decodeLE32_encodeLE32 b.length hb]
  rw [hpay]
  dsimp only
  rw [if_pos hdec]

/-- An empty Flat File Set with the given per-file ceiling. -/
def emptyFFS (ceiling : Nat) : FlatFileSet :=
  ⟨ceiling, [], []⟩

/-- Claim C1: for every valid serialized block `b` (structurally
decodable and with a length that fits the 4-byte length field), saving
`b` through the Block Store (`SaveBlockToDisk`) and then loading it back
from the returned File-Position Descriptor (`ReadBlockFromDisk`) yields
exactly `b`, bit-for-bit. -/
theorem c1_block_roundtrip (st : RecordStore) (b : List Nat)
    (hm : st.magic.length = 4) (hb : b.length < 4294967296)
    (hdec : st.dec b = true) :
    ReadBlockFromDisk (SaveBlockToDisk st b).1 (SaveBlockToDisk st b).2 =
      Except.ok b := by
  unfold ReadBlockFromDisk SaveBlockToDisk
  dsimp only
  exact loadRecord_append st.magic st.dec st.ffs b hm hb hdec

/-- Concrete round trip through the block store. -/
theorem c1_block_roundtrip_witness :
    ReadBlockFromDisk
      (SaveBlockToDisk ⟨[11, 12, 13, 14], fun _ => true, emptyFFS 1000⟩
        [1, 2, 3]).1
      (SaveBlockToDisk ⟨[11, 12, 13, 14], fun _ => true, emptyFFS 1000⟩
        [1, 2, 3]).2 = Except.ok [1, 2, 3] :=
  c1_block_roundtrip ⟨[11, 12, 13, 14], fun _ => true, emptyFFS 1000⟩
    [1, 2, 3] rfl (by decide) rfl

/-- Claim C2: a descriptor written by a Block Store configured with
network magic A, when loaded by a Block Store configured with a
different network magic B over the same file set, fails with
`WrongNetworkMagic`. -/
theorem c2_wrong_magic (stA : RecordStore) (b magicB : List Nat)
    (decB : List Nat → Bool) (hmA : stA.magic.length = 4)
    (hne : stA.magic ≠ magicB) :
    ReadBlockFromDisk ⟨magicB, decB, (SaveBlockToDisk stA b).1.ffs⟩
      (SaveBlockToDisk stA b).2 =
      Except.error ReadError.WrongNetworkMagic := by
  unfold ReadBlockFromDisk SaveBlockToDisk
  dsimp only
  have hlen := mkRecord_length stA.magic b hmA
  have hhdr : readAt (stA.ffs.append (mkRecord stA.magic b)).1
      (stA.ffs.append (mkRecord stA.magic b)).2 8 =
      some (stA.magic ++ encodeLE32 b.length) := by
    have h0 := readAt_append_off stA.ffs (mkRecord stA.magic b) 0 8 (by omega)
    rw [List.drop_zero, mkRecord_take8 stA.magic b hmA] at h0
    simpa using h0
  unfold loadRecord
  rw [hhdr]
  dsimp only
  have htk : (stA.magic ++ encodeLE32 b.length).take 4 = stA.magic := by
    rw [List.take_append_of_le_length (by omega)]
    exact List.take_of_length_le (by omega)
  rw [htk, if_neg hne]

/-- Concrete wrong-magic read. -/
theorem c2_wrong_magic_witness :
    ReadBlockFromDisk
      ⟨[21, 22, 23, 24], fun _ => true,
        (SaveBlockToDisk ⟨[11, 12, 13, 14], fun _ => true, emptyFFS 1000⟩
          [1, 2, 3]).1.ffs⟩
      (SaveBlockToDisk ⟨[11, 12, 13, 14], fun _ => true, emptyFFS 1000⟩
        [1, 2, 3]).2 = Except.error ReadError.WrongNetworkMagic :=
  c2_wrong_magic ⟨[11, 12, 13, 14], fun _ => true, emptyFFS 1000⟩
    [1, 2, 3] [21, 22, 23, 24] (fun _ => true) rfl (by decide)

/-- Claim C8: for every valid serialized undo record `u`, saving `u`
through the Undo Store and loading it back through `UndoReadFromDisk`
from a block-index entry carrying the returned descriptor yields exactly
`u`. -/
theorem c8_undo_roundtrip (st : RecordStore) (u : List Nat)
    (idx : CBlockIndex) (hm : st.magic.length = 4)
    (hu : u.length < 4294967296) (hdec : st.dec u = true)
    (hpos : idx.undoPos = (SaveUndoToDisk st u).2) :
    UndoReadFromDisk (SaveUndoToDisk st u).1 idx = Except.ok u := by
  unfold UndoReadFromDisk
  rw [hpos]
  unfold SaveUndoToDisk
  dsimp only
  exact loadRecord_append st.magic st.dec st.ffs u hm hu hdec

/-- Concrete round trip through the undo store. -/
theorem c8_undo_roundtrip_witness :
    UndoReadFromDisk
      (SaveUndoToDisk ⟨[11, 12, 13, 14], fun _ => true, emptyFFS 1000⟩
        [7, 8]).1
      ⟨⟨0, 0⟩,
        (SaveUndoToDisk ⟨[11, 12, 13, 14], fun _ => true, emptyFFS 1000⟩
          [7, 8]).2⟩ = Except.ok [7, 8] :=
  c8_undo_roundtrip ⟨[11, 12, 13, 14], fun _ => true, emptyFFS 1000⟩
    [7, 8] _ rfl (by decide) rfl rfl

/-- Claim C9: loading a block through the convenience overload that takes
a block-index entry returns the same result as loading through the
raw-descriptor overload applied to the descriptor extracted from that
entry. -/
theorem c9_index_overload (st : RecordStore) (idx : CBlockIndex) :
    ReadBlockFromDiskOfIndex st idx = ReadBlockFromDisk st idx.blockPos :=
  rfl

/-- Claim C10: at the public interface every disk-read operation reports
failure only as the single boolean `false`: whatever distinct internal
fault kind (`WrongNetworkMagic`, `DeserializationError`, `TruncatedRead`)
a failing read of `ReadBlockFromDisk` (either overload) or
`UndoReadFromDisk` hits, the caller observes the same value `false`. -/
theorem c10_bool_face :
    (∀ (st : RecordStore) (pos : FlatFilePos) (e : ReadError),
        ReadBlockFromDisk st pos = Except.error e →
        ReadBlockFromDiskB st pos = false) ∧
    (∀ (st : RecordStore) (idx : CBlockIndex) (e : ReadError),
        ReadBlockFromDiskOfIndex st idx = Except.error e →
        ReadBlockFromDiskOfIndexB st idx = false) ∧
    (∀ (st : RecordStore) (idx : CBlockIndex) (e : ReadError),
        UndoReadFromDisk st idx = Except.error e →
        UndoReadFromDiskB st idx = false) := by
  refine ⟨?_, ?_, ?_⟩ <;> intro st x e h <;>
    simp [ReadBlockFromDiskB, ReadBlockFromDiskOfIndexB, UndoReadFromDiskB, h]

/-- Concrete failing read observed as `false`. -/
theorem c10_bool_face_witness :
    ReadBlockFromDiskB ⟨[11, 12, 13, 14], fun _ => true, emptyFFS 1000⟩
      ⟨5, 0⟩ = false :=
  c10_bool_face.1 ⟨[11, 12, 13, 14], fun _ => true, emptyFFS 1000⟩ ⟨5, 0⟩
    ReadError.TruncatedRead rfl

/-- Unfolding equation of `appendAll` on a cons. -/
theorem appendAll_cons (s : FlatFileSet) (r : List Nat)
    (rs : List (List Nat)) :
    appendAll s (r :: rs) =
      ((appendAll (s.append r).1 rs).1,
        (s.append r).2 :: (appendAll (s.append r).1 rs).2) := rfl

/-- The rotating branch of `append`. -/
theorem append_rot (s : FlatFileSet) (r : List Nat)
    (h : s.active.length + r.length > s.ceiling) :
    s.append r =
      (⟨s.ceiling, s.closed ++ [s.active], r⟩, ⟨s.closed.length + 1, 0⟩) := by
  unfold FlatFileSet.append
  rw [if_pos h]

/-- The non-rotating branch of `append`. -/
theorem append_no_rot (s : FlatFileSet) (r : List Nat)
    (h : ¬s.active.length + r.length > s.ceiling) :
    s.append r =
      (⟨s.ceiling, s.closed, s.active ++ r⟩,
        ⟨s.closed.length, s.active.length⟩) := by
  unfold FlatFileSet.append
  rw [if_neg h]

/-- If every descriptor a sequence of appends returned names the file that
was active at the start, no rotation ever happened: everything landed in
that one file, whose final size is the old size plus the cumulative record
size, and stayed within the ceiling. -/
theorem appendAll_no_rotation (rs : List (List Nat)) :
    ∀ s : FlatFileSet, rs ≠ [] →
      (∀ p ∈ (appendAll s rs).2, p.fileIndex = s.closed.length) →
      (appendAll s rs).1.active.length ≤ s.ceiling ∧
        (appendAll s rs).1.active.length =
          s.active.length + (rs.map List.length).sum := by
  induction rs with
  | nil => exact fun s hne _ => absurd rfl hne
  | cons r rs ih =>
    intro s _ hall
    by_cases hrot : s.active.length + r.length > s.ceiling
    · exfalso
      have hp := hall (s.append r).2
        (by rw [appendAll_cons]; exact List.mem_cons_self _ _)
      rw [append_rot s r hrot] at hp
      dsimp only at hp
      omega
    · have happ := append_no_rot s r hrot
      cases rs with
      | nil =>
        rw [appendAll_cons]
        dsimp only [appendAll]
        rw [happ]
        dsimp only
        constructor
        · simp only [List.length_append]
          omega
        · simp only [List.map_cons, List.map_nil, List.sum_cons,
            List.sum_nil, List.length_append]
          omega
      | cons r2 rs2 =>
        have hall' : ∀ p ∈ (appendAll (s.append r).1 (r2 :: rs2)).2,
            p.fileIndex = (s.append r).1.closed.length := by
          intro p hp
          have hin := hall p
            (by rw [appendAll_cons]; exact List.mem_cons_of_mem _ hp)
          rw [happ]
          exact hin
        have hih := ih (s.append r).1 (by simp) hall'
        rw [appendAll_cons]
        dsimp only
        rw [happ] at hih ⊢
        dsimp only at hih ⊢
        constructor
        · exact hih.1
        · rw [hih.2]
          simp only [List.map_cons, List.sum_cons, List.length_append]
          omega

/-- One append keeps every file within `ceiling + M` when the appended
record is at most `M` long and every existing file already satisfied the
bound. -/
theorem append_files_le (s : FlatFileSet) (r : List Nat) (M : Nat)
    (hr : r.length ≤ M) (hf : ∀ f ∈ s.files, f.length ≤ s.ceiling + M) :
    ∀ f ∈ (s.append r).1.files, f.length ≤ s.ceiling + M := by
  by_cases hrot : s.active.length + r.length > s.ceiling
  · rw [append_rot s r hrot]
    intro f hfm
    simp only [FlatFileSet.files, List.append_assoc, List.mem_append,
      List.mem_singleton] at hfm
    rcases hfm with hc | hc | hc
    · exact hf f (by simp [FlatFileSet.files, hc])
    · exact hf f (by simp [FlatFileSet.files, hc])
    · subst hc; omega
  · rw [append_no_rot s r hrot]
    intro f hfm
    simp only [FlatFileSet.files, List.mem_append, List.mem_singleton] at hfm
    rcases hfm with hc | hc
    · exact hf f (by simp [FlatFileSet.files, hc])
    · subst hc
      simp only [List.length_append]
      omega

/-- Appending preserves the ceiling. -/
theorem append_ceiling (s : FlatFileSet) (r : List Nat) :
    (s.append r).1.ceiling = s.ceiling := by
  by_cases hrot : s.active.length + r.length > s.ceiling
  · rw [append_rot s r hrot]
  · rw [append_no_rot s r hrot]

/-- A whole sequence of appends keeps every file within `ceiling + M`. -/
theorem appendAll_files_le (rs : List (List Nat)) :
    ∀ (s : FlatFileSet) (M : Nat), (∀ r ∈ rs, r.length ≤ M) →
      (∀ f ∈ s.files, f.length ≤ s.ceiling + M) →
      ∀ f ∈ (appendAll s rs).1.files, f.length ≤ s.ceiling + M := by
  induction rs with
  | nil => exact fun s M _ hf => hf
  | cons r rs ih =>
    intro s M hr hf
    rw [appendAll_cons]
    dsimp only
    have hstep := append_files_le s r M (hr r (List.mem_cons_self _ _)) hf
    have hceil := append_ceiling s r
    have := ih (s.append r).1 M (fun x hx => hr x (List.mem_cons_of_mem _ hx))
      (by rw [hceil]; exact hstep)
    rw [hceil] at this
    exact this

/-- Every member of a list of naturals is at most its `foldr max 0`. -/
theorem mem_le_foldr_max (l : List Nat) (a : Nat) (h : a ∈ l) :
    a ≤ l.foldr max 0 := by
  induction l with
  | nil => cases h
  | cons x xs ih =>
    rcases List.mem_cons.mp h with h1 | h1
    · subst h1
      exact Nat.le_max_left _ _
    · exact Nat.le_trans (ih h1) (Nat.le_max_right _ _)

/-- Claim C4, counterexample: a single appended record of 5 bytes against
a per-file ceiling of 4 makes the cumulative size exceed the ceiling, yet
the returned descriptors (there is only one) cannot span two distinct
`file_index` values: they all share one `file_index`. -/
theorem c4_rotation_cex :
    (([[0, 0, 0, 0, 0]] : List (List Nat)).map List.length).sum >
        (emptyFFS 4).ceiling ∧
      ∀ p ∈ (appendAll (emptyFFS 4) [[0, 0, 0, 0, 0]]).2,
        ∀ q ∈ (appendAll (emptyFFS 4) [[0, 0, 0, 0, 0]]).2,
          p.fileIndex = q.fileIndex := by
  decide

/-- Claim C4 (amended): for every nonempty sequence of appends to an
initially empty Flat File Set, each record no longer than the per-file
ceiling, whose cumulative size exceeds the ceiling, the returned
descriptors span at least two distinct `file_index` values, and after all
appends no single file's final size exceeds the ceiling by more than the
length of one record (the longest appended record). -/
theorem c4_rotation (C : Nat) (rs : List (List Nat)) (hne : rs ≠ [])
    (hfit : ∀ r ∈ rs, r.length ≤ C)
    (hsum : (rs.map List.length).sum > C) :
    (∃ p ∈ (appendAll (emptyFFS C) rs).2,
      ∃ q ∈ (appendAll (emptyFFS C) rs).2, p.fileIndex ≠ q.fileIndex) ∧
      ∀ f ∈ (appendAll (emptyFFS C) rs).1.files,
        f.length ≤ C + (rs.map List.length).foldr max 0 := by
  constructor
  · by_contra hcon
    push_neg at hcon
    cases rs with
    | nil => exact absurd rfl hne
    | cons r rs' =>
      have hrot : ¬(emptyFFS C).active.length + r.length > (emptyFFS C).ceiling := by
        have := hfit r (List.mem_cons_self _ _)
        simp only [emptyFFS, List.length_nil]
        omega
      have hp1 : ((emptyFFS C).append r).2 = ⟨0, 0⟩ := by
        rw [append_no_rot _ r hrot]
        rfl
      have hmem1 : ((emptyFFS C).append r).2 ∈ (appendAll (emptyFFS C) (r :: rs')).2 := by
        rw [appendAll_cons]
        exact List.mem_cons_self _ _
      have hall : ∀ p ∈ (appendAll (emptyFFS C) (r :: rs')).2,
          p.fileIndex = (emptyFFS C).closed.length := by
        intro p hp
        have := hcon p hp ((emptyFFS C).append r).2 hmem1
        rw [hp1] at this
        exact this
      have hmain := appendAll_no_rotation (r :: rs') (emptyFFS C)
        (by simp) hall
      have : (((r :: rs').map List.length).sum : Nat) ≤ C := by
        have h2 := hmain.2
        have h1 := hmain.1
        simp only [emptyFFS, List.length_nil, Nat.zero_add] at h1 h2
        omega
      omega
  · apply appendAll_files_le
    · exact fun r hr => mem_le_foldr_max _ _ (List.mem_map_of_mem List.length hr)
    · intro f hf
      simp only [emptyFFS, FlatFileSet.files, List.nil_append,
        List.mem_singleton] at hf
      subst hf
      simp only [List.length_nil]
      omega

/-- Concrete rotation: two 6-byte records against a ceiling of 10. -/
theorem c4_rotation_witness :
    (∃ p ∈ (appendAll (emptyFFS 10) [[1, 1, 1, 1, 1, 1], [2, 2, 2, 2, 2, 2]]).2,
      ∃ q ∈ (appendAll (emptyFFS 10) [[1, 1, 1, 1, 1, 1], [2, 2, 2, 2, 2, 2]]).2,
        p.fileIndex ≠ q.fileIndex) ∧
      ∀ f ∈ (appendAll (emptyFFS 10) [[1, 1, 1, 1, 1, 1], [2, 2, 2, 2, 2, 2]]).1.files,
        f.length ≤ 10 + (([[1, 1, 1, 1, 1, 1], [2, 2, 2, 2, 2, 2]] : List (List Nat)).map List.length).foldr max 0 :=
  c4_rotation 10 [[1, 1, 1, 1, 1, 1], [2, 2, 2, 2, 2, 2]] (by decide)
    (by decide) (by decide)

/-- Modelled from the spec (section 4.1, `open_for_append`): length of the
longest prefix of a file that is a concatenation of complete stored
records (magic match, full header, full payload).  Everything beyond it is
a torn write.  Structured as fuel recursion; each complete record consumes
at least 8 bytes, so a fuel of the file length always suffices. -/
def completeLen (magic : List Nat) : Nat → List Nat → Nat
  | 0, _ => 0
  | fuel + 1, s =>
    if s.take 4 = magic ∧ 8 ≤ s.length ∧
        8 + decodeLE32 ((s.drop 4).take 4) ≤ s.length then
      (8 + decodeLE32 ((s.drop 4).take 4)) +
        completeLen magic fuel (s.drop (8 + decodeLE32 ((s.drop 4).take 4)))
    else 0

/-- Modelled from the spec (section 4.1, `open_for_append`): discard the
excess bytes beyond the last complete record (the torn tail). -/
def truncTorn (magic : List Nat) (s : List Nat) : List Nat :=
  s.take (completeLen magic s.length s)

/-- Modelled from the spec (section 4.1, `open_for_append`): reopen a
Flat File Set for append after a crash, trusting the on-disk contents and
discarding any torn tail of the active file. -/
def openForAppend (magic : List Nat) (s : FlatFileSet) : FlatFileSet :=
  ⟨s.ceiling, s.closed, truncTorn magic s.active⟩

/-- A strict prefix of a stored record is never scanned as complete: the
scanner stops at it, for any fuel. -/
theorem completeLen_torn (magic : List Nat) (hm : magic.length = 4)
    (tl : List Nat)
    (htl : ∃ pay t, pay.length < 4294967296 ∧ t ≠ [] ∧
      tl ++ t = mkRecord magic pay) :
    ∀ fuel, completeLen magic fuel tl = 0 := by
  obtain ⟨pay, t, hp32, ht, heq⟩ := htl
  intro fuel
  cases fuel with
  | zero => rfl
  | succ fuel =>
    simp only [completeLen]
    rw [if_neg]
    intro hcond
    obtain ⟨htk, h8, hlen⟩ := hcond
    have htlen : tl.length + t.length = 8 + pay.length := by
      have := congrArg List.length heq
      rw [List.length_append, mkRecord_length magic pay hm] at this
      exact this
    have htpos : 0 < t.length := List.length_pos.2 ht
    have hdec : decodeLE32 ((tl.drop 4).take 4) = pay.length := by
      have hdrop : (tl ++ t).drop 4 = tl.drop 4 ++ t := by
        rw [List.drop_append_eq_append_drop]
        have h40 : 4 - tl.length = 0 := by omega
        rw [h40, List.drop_zero]
      have hrec : (mkRecord magic pay).drop 4 =
          encodeLE32 pay.length ++ (pay) := by
        unfold mkRecord
        rw [List.append_assoc]
        rw [List.drop_append_eq_append_drop]
        rw [List.drop_eq_nil_of_le (by omega), List.nil_append]
        have h40 : 4 - magic.length = 0 := by omega
        rw [h40, List.drop_zero]
      have hth : tl.drop 4 ++ t = encodeLE32 pay.length ++ pay := by
        rw [← hdrop, heq, hrec]
      have htake : (tl.drop 4 ++ t).take 4 = (tl.drop 4).take 4 := by
        rw [List.take_append_of_le_length (by simp; omega)]
      have htake2 : (encodeLE32 pay.length ++ pay).take 4 =
          encodeLE32 pay.length := by
        rw [List.take_append_of_le_length (by simp [encodeLE32])]
        exact List.take_of_length_le (by simp [encodeLE32])
      rw [← htake, hth, htake2, decodeLE32_encodeLE32 pay.length hp32]
    rw [hdec] at hlen
    omega

/-- Scanning a complete record at the head of the file consumes exactly
that record. -/
theorem completeLen_record (magic : List Nat) (hm : magic.length = 4)
    (p rest : List Nat) (hp : p.length < 4294967296) (fuel : Nat) :
    completeLen magic (fuel + 1) (mkRecord magic p ++ rest) =
      (8 + p.length) + completeLen magic fuel rest := by
  have hassoc : mkRecord magic p ++ rest =
      magic ++ (encodeLE32 p.length ++ (p ++ rest)) := by
    simp [mkRecord, List.append_assoc]
  have hslen : (mkRecord magic p ++ rest).length =
      8 + p.length + rest.length := by
    rw [List.length_append, mkRecord_length magic p hm]
  have htake4 : (mkRecord magic p ++ rest).take 4 = magic := by
    rw [hassoc, List.take_append_of_le_length (by omega)]
    exact List.take_of_length_le (by omega)
  have hdrop4 : (mkRecord magic p ++ rest).drop 4 =
      encodeLE32 p.length ++ (p ++ rest) := by
    rw [hassoc, List.drop_append_eq_append_drop,
      List.drop_eq_nil_of_le (by omega), List.nil_append]
    have h40 : 4 - magic.length = 0 := by omega
    rw [h40, List.drop_zero]
  have htk2 : ((mkRecord magic p ++ rest).drop 4).take 4 =
      encodeLE32 p.length := by
    rw [hdrop4, List.take_append_of_le_length (by simp [encodeLE32])]
    exact List.take_of_length_le (by simp [encodeLE32])
  have hdroprec : (mkRecord magic p ++ rest).drop (8 + p.length) = rest := by
    have hl : (mkRecord magic p).length = 8 + p.length :=
      mkRecord_length magic p hm
    rw [← hl, List.drop_left]
  simp only [completeLen, htk2, decodeLE32_encodeLE32 p.length hp]
  rw [if_pos ⟨htake4, by omega, by omega⟩, hdroprec]

/-- Scanning a concatenation of complete records followed by a torn tail
stops exactly at the end of the last complete record. -/
theorem completeLen_stream (magic : List Nat) (hm : magic.length = 4)
    (recs : List (List Nat)) :
    ∀ (tl : List Nat) (fuel : Nat),
      (∀ r ∈ recs, ∃ p, p.length < 4294967296 ∧ r = mkRecord magic p) →
      (∃ pay t, pay.length < 4294967296 ∧ t ≠ [] ∧
        tl ++ t = mkRecord magic pay) →
      recs.length ≤ fuel →
      completeLen magic fuel (recs.flatten ++ tl) = recs.flatten.length := by
  induction recs with
  | nil =>
    intro tl fuel _ htl _
    simp only [List.flatten_nil, List.nil_append, List.length_nil]
    exact completeLen_torn magic hm tl htl fuel
  | cons r recs ih =>
    intro tl fuel hrecs htl hfuel
    simp only [List.length_cons] at hfuel
    obtain ⟨p, hp32, hpr⟩ := hrecs r (List.mem_cons_self _ _)
    cases fuel with
    | zero => omega
    | succ fuel =>
      have hflat : (r :: recs).flatten ++ tl =
          mkRecord magic p ++ (recs.flatten ++ tl) := by
        rw [List.flatten_cons, hpr, List.append_assoc]
      rw [hflat, completeLen_record magic hm p (recs.flatten ++ tl) hp32 fuel]
      rw [ih tl fuel (fun x hx => hrecs x (List.mem_cons_of_mem _ hx)) htl
        (by omega)]
      rw [List.flatten_cons, List.length_append, hpr,
        mkRecord_length magic p hm]

/-- A list of complete records is no longer (in count) than its flattened
byte length. -/
theorem recs_length_le_flatten (magic : List Nat) (recs : List (List Nat))
    (hrecs : ∀ r ∈ recs, ∃ p, p.length < 4294967296 ∧ r = mkRecord magic p) :
    recs.length ≤ recs.flatten.length := by
  induction recs with
  | nil => simp
  | cons r recs ih =>
    obtain ⟨p, _, hpr⟩ := hrecs r (List.mem_cons_self _ _)
    have hlen : 1 ≤ r.length := by
      rw [hpr]
      simp only [mkRecord, encodeLE32, List.length_append, List.length_cons]
      omega
    have := ih (fun x hx => hrecs x (List.mem_cons_of_mem _ hx))
    simp only [List.flatten_cons, List.length_cons, List.length_append]
    omega

/-- Claim C3, counterexample: a block file holding one complete 8-byte
record plus a 1-byte torn tail, reopened with ceiling 20; appending a
13-byte record would exceed the ceiling, so the append rotates and
returns byte_offset 0 in a new file — not the end (8) of the last
complete record. -/
theorem c3_torn_recovery_cex :
    ((openForAppend [11, 12, 13, 14]
        ⟨20, [], mkRecord [11, 12, 13, 14] [] ++ [11]⟩).append
        [9, 9, 9, 9, 9, 9, 9, 9, 9, 9, 9, 9, 9]).2 =
      ⟨1, 0⟩ ∧
      (openForAppend [11, 12, 13, 14]
        ⟨20, [], mkRecord [11, 12, 13, 14] [] ++ [11]⟩).active =
        mkRecord [11, 12, 13, 14] [] := by
  decide

/-- Claim C3 (amended): for every block file consisting of complete
records followed by a partial (torn) record, reopening the Flat File Set
for append discards the incomplete tail; and provided the next record
fits under the per-file ceiling at the recovered offset (no rotation),
the next append returns a descriptor whose byte_offset equals the end of
the last complete record. -/
theorem c3_torn_recovery (magic : List Nat) (C : Nat)
    (closedFiles recs : List (List Nat)) (tl nb : List Nat)
    (hm : magic.length = 4)
    (hrecs : ∀ r ∈ recs, ∃ p, p.length < 4294967296 ∧ r = mkRecord magic p)
    (htl : ∃ pay t, pay.length < 4294967296 ∧ t ≠ [] ∧
      tl ++ t = mkRecord magic pay)
    (hfit : recs.flatten.length + nb.length ≤ C) :
    (openForAppend magic ⟨C, closedFiles, recs.flatten ++ tl⟩).active =
        recs.flatten ∧
      ((openForAppend magic ⟨C, closedFiles, recs.flatten ++ tl⟩).append
        nb).2 = ⟨closedFiles.length, recs.flatten.length⟩ := by
  have htr : truncTorn magic (recs.flatten ++ tl) = recs.flatten := by
    unfold truncTorn
    rw [completeLen_stream magic hm recs tl (recs.flatten ++ tl).length hrecs
      htl (by
        have h1 := recs_length_le_flatten magic recs hrecs
        simp only [List.length_append]
        omega)]
    exact List.take_left _ _
  have hopen : openForAppend magic ⟨C, closedFiles, recs.flatten ++ tl⟩ =
      ⟨C, closedFiles, recs.flatten⟩ := by
    unfold openForAppend
    dsimp only
    rw [htr]
  constructor
  · rw [hopen]
  · rw [hopen]
    rw [append_no_rot ⟨C, closedFiles, recs.flatten⟩ nb (by dsimp only; omega)]

/-- Concrete torn-write recovery: one complete record, a torn tail of one
byte, and a next append that fits. -/
theorem c3_torn_recovery_witness :
    (openForAppend [11, 12, 13, 14]
        ⟨30, [], ([mkRecord [11, 12, 13, 14] [5]] : List (List Nat)).flatten ++
          [11, 12]⟩).active =
        ([mkRecord [11, 12, 13, 14] [5]] : List (List Nat)).flatten ∧
      ((openForAppend [11, 12, 13, 14]
        ⟨30, [], ([mkRecord [11, 12, 13, 14] [5]] : List (List Nat)).flatten ++
          [11, 12]⟩).append [7, 7, 7]).2 =
        ⟨([] : List (List Nat)).length,
          ([mkRecord [11, 12, 13, 14] [5]] : List (List Nat)).flatten.length⟩ :=
  c3_torn_recovery [11, 12, 13, 14] 30 [] [mkRecord [11, 12, 13, 14] [5]]
    [11, 12] [7, 7, 7] rfl
    (by
      intro r hr
      refine ⟨[5], by decide, ?_⟩
      simp only [List.mem_singleton] at hr
      exact hr)
    ⟨[5], [13, 14, 1, 0, 0, 0, 5], by decide, by decide, by decide⟩
    (by decide)

/-- Modelled from the spec (sections 2 and 4.4): a decoded block as the
pipeline sees it — its own hash and the hash of its claimed
parent. -/
structure ImpBlock where
  hash : Nat
  parent : Nat
deriving DecidableEq, Repr

/-- Modelled from the spec (sections 3 and 4.4): the Import Pipeline's
working state — the connected chain (hashes in connection order, as the
external chain-state authority records them) and the Orphan Buffer of
decoded blocks waiting for their parent. -/
structure ImpState where
  connected : List Nat
  orphans : List ImpBlock
deriving DecidableEq, Repr

/-- Modelled from the spec (section 4.4, `Connecting`): the worklist that
drains the Orphan Buffer — for each newly connected hash on the worklist,
every orphan waiting on it is connected and its own hash is enqueued, so
long orphan chains are resolved iteratively, not recursively.  Each step
either consumes a worklist entry or stops; a fuel of
`orphans.length + 1` always suffices because every enqueued hash comes
from a removed orphan. -/
def drain : Nat → ImpState → List Nat → ImpState
  | 0, st, _ => st
  | _ + 1, st, [] => st
  | fuel + 1, st, h :: work =>
    let waiting := st.orphans.filter (fun b => b.parent == h)
    let rest := st.orphans.filter (fun b => !(b.parent == h))
    drain fuel ⟨st.connected ++ waiting.map ImpBlock.hash, rest⟩
      (work ++ waiting.map ImpBlock.hash)

/-- Modelled from the spec (section 4.4, `Connecting`): hand one decoded
block to the accept-and-connect entry point.  If its parent is already
connected it is connected and the Orphan Buffer is drained transitively;
otherwise it is placed in the Orphan Buffer keyed by its claimed parent
hash. -/
def processBlock (st : ImpState) (b : ImpBlock) : ImpState :=
  if b.parent ∈ st.connected then
    drain (st.orphans.length + 1) ⟨st.connected ++ [b.hash], st.orphans⟩
      [b.hash]
  else ⟨st.connected, st.orphans ++ [b]⟩

/-- Feeding a list of decoded blocks through the pipeline's connecting
stage in order. -/
def importBlocks (st : ImpState) (bs : List ImpBlock) : ImpState :=
  bs.foldl processBlock st

/-- Draining with an empty Orphan Buffer changes nothing. -/
theorem drain_no_orphans (fuel : Nat) :
    ∀ (c : List Nat) (work : List Nat), drain fuel ⟨c, []⟩ work = ⟨c, []⟩ := by
  induction fuel with
  | zero => intro c work; rfl
  | succ fuel ih =>
    intro c work
    cases work with
    | nil => rfl
    | cons h work =>
      simp only [drain, List.filter_nil, List.map_nil, List.append_nil]
      exact ih c work

/-- Connecting a block whose parent is connected, with no orphans
waiting, just appends its hash. -/
theorem processBlock_connect_simple (st : ImpState) (b : ImpBlock)
    (hpar : b.parent ∈ st.connected) (horph : st.orphans = []) :
    processBlock st b = ⟨st.connected ++ [b.hash], []⟩ := by
  unfold processBlock
  rw [if_pos hpar, horph]
  exact drain_no_orphans _ _ _

/-- A block whose parent is not connected is buffered as an orphan. -/
theorem processBlock_orphan (st : ImpState) (b : ImpBlock)
    (hpar : b.parent ∉ st.connected) :
    processBlock st b = ⟨st.connected, st.orphans ++ [b]⟩ := by
  unfold processBlock
  rw [if_neg hpar]

/-- Claim C5: three blocks B1, B2, B3 with B2's parent B1 and B3's parent
B2 (all hashes distinct, B1's parent already connected), fed to the
Import Pipeline's connecting stage in any input order, all end up
connected, and the connection order respects parentage: B2 is connected
only after B1, and B3 only after B2. -/
theorem c5_orphan_resolution (g h1 h2 h3 : Nat)
    (hne10 : h1 ≠ g) (hne20 : h2 ≠ g) (hne30 : h3 ≠ g)
    (hne21 : h2 ≠ h1) (hne31 : h3 ≠ h1) (hne32 : h3 ≠ h2)
    (input : List ImpBlock)
    (horder :
      input = [⟨h1, g⟩, ⟨h2, h1⟩, ⟨h3, h2⟩] ∨
      input = [⟨h1, g⟩, ⟨h3, h2⟩, ⟨h2, h1⟩] ∨
      input = [⟨h2, h1⟩, ⟨h1, g⟩, ⟨h3, h2⟩] ∨
      input = [⟨h2, h1⟩, ⟨h3, h2⟩, ⟨h1, g⟩] ∨
      input = [⟨h3, h2⟩, ⟨h1, g⟩, ⟨h2, h1⟩] ∨
      input = [⟨h3, h2⟩, ⟨h2, h1⟩, ⟨h1, g⟩]) :
    h1 ∈ (importBlocks ⟨[g], []⟩ input).connected ∧
      h2 ∈ (importBlocks ⟨[g], []⟩ input).connected ∧
      h3 ∈ (importBlocks ⟨[g], []⟩ input).connected ∧
      (importBlocks ⟨[g], []⟩ input).connected.indexOf h1 <
        (importBlocks ⟨[g], []⟩ input).connected.indexOf h2 ∧
      (importBlocks ⟨[g], []⟩ input).connected.indexOf h2 <
        (importBlocks ⟨[g], []⟩ input).connected.indexOf h3 := by
  have e21 : (h2 == h1) = false := beq_eq_false_iff_ne.mpr hne21
  have e12 : (h1 == h2) = false := beq_eq_false_iff_ne.mpr (Ne.symm hne21)
  have e13 : (h1 == h3) = false := beq_eq_false_iff_ne.mpr (Ne.symm hne31)
  have e23 : (h2 == h3) = false := beq_eq_false_iff_ne.mpr (Ne.symm hne32)
  have hconn : (importBlocks ⟨[g], []⟩ input).connected = [g, h1, h2, h3] := by
    rcases horder with rfl | rfl | rfl | rfl | rfl | rfl <;>
      simp [importBlocks, processBlock, drain, List.filter, hne10, hne20,
        hne30, hne21, hne31, hne32, e21, e12, e13, e23]
  rw [hconn]
  have i1 : List.indexOf h1 [g, h1, h2, h3] = 1 := by
    rw [List.indexOf_cons_ne _ (Ne.symm hne10), List.indexOf_cons_self]
  have i2 : List.indexOf h2 [g, h1, h2, h3] = 2 := by
    rw [List.indexOf_cons_ne _ (Ne.symm hne20),
      List.indexOf_cons_ne _ (Ne.symm hne21), List.indexOf_cons_self]
  have i3 : List.indexOf h3 [g, h1, h2, h3] = 3 := by
    rw [List.indexOf_cons_ne _ (Ne.symm hne30),
      List.indexOf_cons_ne _ (Ne.symm hne31),
      List.indexOf_cons_ne _ (Ne.symm hne32), List.indexOf_cons_self]
  refine ⟨by simp, by simp, by simp, ?_, ?_⟩
  · rw [i1, i2]
    omega
  · rw [i2, i3]
    omega

/-- Concrete orphan resolution: chain 1 ← 2 ← 3 over genesis 0, fed in
the order B3, B1, B2. -/
theorem c5_orphan_resolution_witness :
    1 ∈ (importBlocks ⟨[0], []⟩
        [⟨3, 2⟩, ⟨1, 0⟩, ⟨2, 1⟩]).connected ∧
      2 ∈ (importBlocks ⟨[0], []⟩
        [⟨3, 2⟩, ⟨1, 0⟩, ⟨2, 1⟩]).connected ∧
      3 ∈ (importBlocks ⟨[0], []⟩
        [⟨3, 2⟩, ⟨1, 0⟩, ⟨2, 1⟩]).connected ∧
      (importBlocks ⟨[0], []⟩ [⟨3, 2⟩, ⟨1, 0⟩, ⟨2, 1⟩]).connected.indexOf 1 <
        (importBlocks ⟨[0], []⟩ [⟨3, 2⟩, ⟨1, 0⟩, ⟨2, 1⟩]).connected.indexOf 2 ∧
      (importBlocks ⟨[0], []⟩ [⟨3, 2⟩, ⟨1, 0⟩, ⟨2, 1⟩]).connected.indexOf 2 <
        (importBlocks ⟨[0], []⟩ [⟨3, 2⟩, ⟨1, 0⟩, ⟨2, 1⟩]).connected.indexOf 3 :=
  c5_orphan_resolution 0 1 2 3 (by decide) (by decide) (by decide)
    (by decide) (by decide) (by decide) [⟨3, 2⟩, ⟨1, 0⟩, ⟨2, 1⟩]
    (Or.inr (Or.inr (Or.inr (Or.inr (Or.inl rfl)))))

/-- Modelled from the spec (section 4.4): terminal states of the Import
Pipeline for one source. -/
inductive ImportStatus where
  | Done
  | Aborted
deriving DecidableEq, Repr

/-- Result of running the Import Pipeline over one source: final
connecting state, number of logged skips (deserialization failures),
source data left unread, and the terminal status. -/
structure ImportResult where
  state : ImpState
  skips : Nat
  unread : List Nat
  status : ImportStatus
deriving Repr

/-- Modelled from the spec (section 4.4, `Scanning`): seek forward
through the source to the next occurrence of the 4-byte magic tag,
tolerating leading garbage/padding between records. -/
def scanMagic (magic : List Nat) : List Nat → List Nat
  | [] => []
  | a :: s => if (a :: s).take 4 = magic then a :: s else scanMagic magic s

/-- Modelled from the spec (section 4.4, `DecodingRecord`): at a magic
match, read the length-prefixed payload; `none` when the source ends
before a full envelope or payload is available. -/
def readRecord (magic : List Nat) (s : List Nat) :
    Option (List Nat × List Nat) :=
  if s.take 4 = magic ∧ 8 ≤ s.length ∧
      8 + decodeLE32 ((s.drop 4).take 4) ≤ s.length then
    some ((s.drop 8).take (decodeLE32 ((s.drop 4).take 4)),
      s.drop (8 + decodeLE32 ((s.drop 4).take 4)))
  else none

/-- Modelled from the spec (section 4.4): the configured
maximum-import-block bound, expressed as a target total length of the
connected chain; `none` means unbounded. -/
def capReached : Option Nat → ImpState → Bool
  | none, _ => false
  | some t, st => t ≤ st.connected.length

/-- Modelled from the spec (section 4.4): the per-source state machine of
the Import Pipeline.  Each iteration checks the import cap, scans to the
next magic tag, reads one length-prefixed record, and either connects the
decoded block or logs one skip and resumes scanning just past the bad
record.  End of usable data transitions to `Done`.  Each iteration
consumes at least one byte of source, so a fuel of the source length plus
one always suffices. -/
def runStream (dec : List Nat → Option ImpBlock) (magic : List Nat)
    (cap : Option Nat) : Nat → List Nat → ImpState → Nat → ImportResult
  | 0, s, st, skips => ⟨st, skips, s, ImportStatus.Done⟩
  | fuel + 1, s, st, skips =>
    if capReached cap st then ⟨st, skips, s, ImportStatus.Done⟩
    else
      match readRecord magic (scanMagic magic s) with
      | none => ⟨st, skips, [], ImportStatus.Done⟩
      | some (payload, rest) =>
        match dec payload with
        | none => runStream dec magic cap fuel rest st (skips + 1)
        | some b =>
          runStream dec magic cap fuel rest (processBlock st b) skips

/-- Modelled from the spec (section 4.4): one-shot import of one external
source; named after the source declaration `ThreadImport`
(src/src/node/blockstorage.h).  The optional maximum-import-block count
is turned into a target connected-chain length; the fuel (source length
plus one) always suffices for the per-record loop. -/
def ThreadImport (dec : List Nat → Option ImpBlock) (magic : List Nat)
    (maxBlocks : Option Nat) (source : List Nat) (st : ImpState) :
    ImportResult :=
  runStream dec magic
    (match maxBlocks with
      | none => none
      | some n => some (st.connected.length + n))
    (source.length + 1) source st 0

/-- A chain of blocks each naming the previous one (the first naming the
anchor) as its parent. -/
def chainB : Nat → List ImpBlock → Bool
  | _, [] => true
  | anchor, b :: bs => (b.parent == anchor) && chainB b.hash bs

/-- Head slices of an envelope followed by more stream. -/
theorem mkRecord_append_take4 (magic p rest : List Nat)
    (hm : magic.length = 4) :
    (mkRecord magic p ++ rest).take 4 = magic := by
  rw [show mkRecord magic p ++ rest =
      magic ++ (encodeLE32 p.length ++ (p ++ rest)) by
    simp [mkRecord, List.append_assoc]]
  rw [List.take_append_of_le_length (by omega)]
  exact List.take_of_length_le (by omega)

theorem mkRecord_append_hdr (magic p rest : List Nat)
    (hm : magic.length = 4) :
    ((mkRecord magic p ++ rest).drop 4).take 4 = encodeLE32 p.length := by
  rw [show mkRecord magic p ++ rest =
      magic ++ (encodeLE32 p.length ++ (p ++ rest)) by
    simp [mkRecord, List.append_assoc]]
  rw [List.drop_append_eq_append_drop, List.drop_eq_nil_of_le (by omega),
    List.nil_append, show 4 - magic.length = 0 by omega, List.drop_zero]
  rw [List.take_append_of_le_length (by simp [encodeLE32])]
  exact List.take_of_length_le (by simp [encodeLE32])

theorem mkRecord_append_payload (magic p rest : List Nat)
    (hm : magic.length = 4) :
    ((mkRecord magic p ++ rest).drop 8).take p.length = p := by
  have hd : (mkRecord magic p ++ rest).drop 8 = p ++ rest := by
    rw [List.drop_append_eq_append_drop, mkRecord_drop8 magic p hm,
      show 8 - (mkRecord magic p).length = 0 by
        rw [mkRecord_length magic p hm]; omega, List.drop_zero]
  rw [hd]
  exact List.take_left _ _

theorem mkRecord_append_rest (magic p rest : List Nat)
    (hm : magic.length = 4) :
    (mkRecord magic p ++ rest).drop (8 + p.length) = rest := by
  rw [show 8 + p.length = (mkRecord magic p).length by
    rw [mkRecord_length magic p hm]]
  exact List.drop_left _ _

/-- A stream positioned exactly at a magic tag is not moved by the
scanner. -/
theorem scanMagic_at_magic (magic s : List Nat) (hm : magic.length = 4)
    (h : s.take 4 = magic) : scanMagic magic s = s := by
  cases s with
  | nil =>
    exfalso
    rw [List.take_nil] at h
    rw [← h] at hm
    simp at hm
  | cons a s =>
    unfold scanMagic
    rw [if_pos h]

/-- Reading at an envelope yields its payload and the rest of the
stream. -/
theorem readRecord_mkRecord (magic p rest : List Nat)
    (hm : magic.length = 4) (hp : p.length < 4294967296) :
    readRecord magic (mkRecord magic p ++ rest) = some (p, rest) := by
  unfold readRecord
  rw [mkRecord_append_hdr magic p rest hm,
    decodeLE32_encodeLE32 p.length hp]
  rw [if_pos ⟨mkRecord_append_take4 magic p rest hm, by
      rw [List.length_append, mkRecord_length magic p hm]; omega, by
      rw [List.length_append, mkRecord_length magic p hm]; omega⟩]
  rw [mkRecord_append_payload magic p rest hm,
    mkRecord_append_rest magic p rest hm]

/-- One pipeline iteration over a well-formed record whose payload fails
to deserialize: log one skip and resume just past the record. -/
theorem runStream_step_skip (dec : List Nat → Option ImpBlock)
    (magic : List Nat) (cap : Option Nat) (fuel : Nat)
    (p rest : List Nat) (st : ImpState) (skips : Nat)
    (hm : magic.length = 4) (hp : p.length < 4294967296)
    (hcap : capReached cap st = false) (hd : dec p = none) :
    runStream dec magic cap (fuel + 1) (mkRecord magic p ++ rest) st skips =
      runStream dec magic cap fuel rest st (skips + 1) := by
  simp only [runStream]
  rw [hcap]
  simp only [Bool.false_eq_true, if_false]
  rw [scanMagic_at_magic magic _ hm (mkRecord_append_take4 magic p rest hm),
    readRecord_mkRecord magic p rest hm hp]
  dsimp only
  rw [hd]

/-- One pipeline iteration over a well-formed record whose payload
decodes: hand the block to the connecting stage and continue past the
record. -/
theorem runStream_step_connect (dec : List Nat → Option ImpBlock)
    (magic : List Nat) (cap : Option Nat) (fuel : Nat)
    (p rest : List Nat) (st : ImpState) (skips : Nat) (b : ImpBlock)
    (hm : magic.length = 4) (hp : p.length < 4294967296)
    (hcap : capReached cap st = false) (hd : dec p = some b) :
    runStream dec magic cap (fuel + 1) (mkRecord magic p ++ rest) st skips =
      runStream dec magic cap fuel rest (processBlock st b) skips := by
  simp only [runStream]
  rw [hcap]
  simp only [Bool.false_eq_true, if_false]
  rw [scanMagic_at_magic magic _ hm (mkRecord_append_take4 magic p rest hm),
    readRecord_mkRecord magic p rest hm hp]
  dsimp only
  rw [hd]

/-- Exhausted source: the pipeline transitions to `Done`. -/
theorem runStream_nil (dec : List Nat → Option ImpBlock)
    (magic : List Nat) (cap : Option Nat) (fuel : Nat) (st : ImpState)
    (skips : Nat) :
    runStream dec magic cap (fuel + 1) [] st skips =
      ⟨st, skips, [], ImportStatus.Done⟩ := by
  unfold runStream
  by_cases hcap : capReached cap st = true
  · rw [if_pos hcap]
  · rw [if_neg hcap]
    have hscan : scanMagic magic [] = [] := rfl
    rw [hscan]
    have hread : readRecord magic [] = none := by
      unfold readRecord
      rw [if_neg]
      intro hcon
      obtain ⟨htk, h8, _⟩ := hcon
      simp at h8
    rw [hread]

/-- Cap already reached: the pipeline stops at once, leaving the source
unread. -/
theorem runStream_capped (dec : List Nat → Option ImpBlock)
    (magic : List Nat) (cap : Option Nat) (fuel : Nat) (s : List Nat)
    (st : ImpState) (skips : Nat) (hcap : capReached cap st = true) :
    runStream dec magic cap (fuel + 1) s st skips =
      ⟨st, skips, s, ImportStatus.Done⟩ := by
  unfold runStream
  rw [if_pos hcap]

/-- Claim C6, counterexample: with one garbage byte (no magic tag in it)
between two valid block records, the import connects both blocks but logs
zero skips, not exactly one: silently scanning past magic-free garbage is
not a logged skip. -/
theorem c6_corrupt_skip_cex :
    (ThreadImport
        (fun p => match p with | [h, q] => some ⟨h, q⟩ | _ => none)
        [250, 251, 252, 253] none
        (mkRecord [250, 251, 252, 253] [1, 0] ++
          ([9] ++ mkRecord [250, 251, 252, 253] [2, 1]))
        ⟨[0], []⟩).skips = 0 ∧
      (ThreadImport
        (fun p => match p with | [h, q] => some ⟨h, q⟩ | _ => none)
        [250, 251, 252, 253] none
        (mkRecord [250, 251, 252, 253] [1, 0] ++
          ([9] ++ mkRecord [250, 251, 252, 253] [2, 1]))
        ⟨[0], []⟩).state.connected = [0, 1, 2] := by
  decide

/-- Claim C6 (amended): an import source holding, in order, a valid block
record, a magic-framed record whose payload fails deserialization, and a
second valid block record, connects exactly the two valid blocks, logs
exactly one skip, and finishes `Done` — the corrupt record does not abort
the import. -/
theorem c6_corrupt_skip (dec : List Nat → Option ImpBlock)
    (magic : List Nat) (g : Nat) (p1 pbad p2 : List Nat) (b1 b2 : ImpBlock)
    (hm : magic.length = 4)
    (hp1 : p1.length < 4294967296) (hpb : pbad.length < 4294967296)
    (hp2 : p2.length < 4294967296)
    (hd1 : dec p1 = some b1) (hdb : dec pbad = none)
    (hd2 : dec p2 = some b2)
    (hb1 : b1.parent = g) (hb2 : b2.parent = b1.hash) :
    ThreadImport dec magic none
      (mkRecord magic p1 ++ (mkRecord magic pbad ++ mkRecord magic p2))
      ⟨[g], []⟩ =
      ⟨⟨[g, b1.hash, b2.hash], []⟩, 1, [], ImportStatus.Done⟩ := by
  have hcore : ∀ f : Nat,
      runStream dec magic none (f + 4)
        (mkRecord magic p1 ++ (mkRecord magic pbad ++ mkRecord magic p2))
        ⟨[g], []⟩ 0 =
      ⟨⟨[g, b1.hash, b2.hash], []⟩, 1, [], ImportStatus.Done⟩ := by
    intro f
    rw [show f + 4 = (f + 3) + 1 from rfl]
    rw [runStream_step_connect dec magic none (f + 3) p1 _ _ 0 b1 hm hp1
      rfl hd1]
    rw [processBlock_connect_simple _ _
      (by rw [hb1]; exact List.mem_singleton.mpr rfl) rfl]
    rw [show f + 3 = (f + 2) + 1 from rfl]
    rw [runStream_step_skip dec magic none (f + 2) pbad _ _ 0 hm hpb
      rfl hdb]
    rw [show f + 2 = (f + 1) + 1 from rfl]
    rw [show mkRecord magic p2 = mkRecord magic p2 ++ [] from
      (List.append_nil _).symm]
    rw [runStream_step_connect dec magic none (f + 1) p2 _ _ 1 b2 hm hp2
      rfl hd2]
    rw [processBlock_connect_simple _ _ (by rw [hb2]; simp) rfl]
    rw [runStream_nil dec magic none f _ 1]
    rfl
  unfold ThreadImport
  dsimp only
  obtain ⟨f, hf⟩ : ∃ f,
      (mkRecord magic p1 ++ (mkRecord magic pbad ++ mkRecord magic p2)).length
        + 1 = f + 4 := by
    refine ⟨(mkRecord magic p1 ++
      (mkRecord magic pbad ++ mkRecord magic p2)).length - 3, ?_⟩
    have h1 := mkRecord_length magic p1 hm
    have h2 := mkRecord_length magic pbad hm
    have h3 := mkRecord_length magic p2 hm
    simp only [List.length_append]
    omega
  rw [hf, hcore f]

/-- Concrete corrupt-record skip: two decodable two-byte payloads around
a framed three-byte payload the decoder rejects. -/
theorem c6_corrupt_skip_witness :
    ThreadImport
        (fun p => match p with | [h, q] => some ⟨h, q⟩ | _ => none)
        [250, 251, 252, 253] none
        (mkRecord [250, 251, 252, 253] [1, 0] ++
          (mkRecord [250, 251, 252, 253] [7, 7, 7] ++
            mkRecord [250, 251, 252, 253] [2, 1]))
        ⟨[0], []⟩ =
      ⟨⟨[0, 1, 2], []⟩, 1, [], ImportStatus.Done⟩ :=
  c6_corrupt_skip
    (fun p => match p with | [h, q] => some ⟨h, q⟩ | _ => none)
    [250, 251, 252, 253] 0 [1, 0] [7, 7, 7] [2, 1] ⟨1, 0⟩ ⟨2, 1⟩
    rfl (by decide) (by decide) (by decide) rfl rfl rfl rfl rfl

/-- The length of a flattened stream of envelopes dominates the number of
envelopes. -/
theorem mkStream_length_ge (magic : List Nat) (payloads : List (List Nat)) :
    payloads.length ≤ ((payloads.map (mkRecord magic)).flatten).length := by
  induction payloads with
  | nil => simp
  | cons p ps ih =>
    simp only [List.map_cons, List.flatten_cons, List.length_append,
      List.length_cons]
    have h1 : 1 ≤ (mkRecord magic p).length := by
      simp only [mkRecord, encodeLE32, List.length_append, List.length_cons]
      omega
    omega

/-- Running the pipeline over a stream of well-formed envelopes whose
payloads decode to a chain of connectable blocks, with an absolute cap on
the connected-chain length, connects exactly the first `N` blocks and
stops with the rest of the stream unread. -/
theorem runStream_chain (dec : List Nat → Option ImpBlock)
    (magic : List Nat) (hm : magic.length = 4) :
    ∀ (N : Nat) (payloads : List (List Nat)) (blocks : List ImpBlock)
      (st : ImpState) (skips anchor fuel : Nat),
      (∀ p ∈ payloads, p.length < 4294967296) →
      payloads.map dec = blocks.map some →
      chainB anchor blocks = true →
      anchor ∈ st.connected →
      st.orphans = [] →
      N ≤ payloads.length →
      N + 1 ≤ fuel →
      runStream dec magic (some (st.connected.length + N)) fuel
        ((payloads.map (mkRecord magic)).flatten) st skips =
        ⟨⟨st.connected ++ (blocks.take N).map ImpBlock.hash, []⟩, skips,
          ((payloads.drop N).map (mkRecord magic)).flatten,
          ImportStatus.Done⟩ := by
  intro N
  induction N with
  | zero =>
    intro payloads blocks st skips anchor fuel _ _ _ _ horph _ hfuel
    cases fuel with
    | zero => omega
    | succ fuel =>
      rw [runStream_capped dec magic _ fuel _ st skips
        (by simp [capReached])]
      have hst : st = ⟨st.connected, []⟩ := by
        cases st
        simp_all
      rw [hst]
      simp
  | succ N ih =>
    intro payloads blocks st skips anchor fuel hp32 hdec hchain hanch
      horph hN hfuel
    cases payloads with
    | nil => simp at hN
    | cons p ps =>
      cases blocks with
      | nil => simp at hdec
      | cons b bs =>
        simp only [List.map_cons, List.cons.injEq] at hdec
        obtain ⟨hdp, hdps⟩ := hdec
        simp only [chainB, Bool.and_eq_true, beq_iff_eq] at hchain
        obtain ⟨hbp, hbs⟩ := hchain
        cases fuel with
        | zero => omega
        | succ fuel =>
          have hcap : capReached (some (st.connected.length + (N + 1))) st
              = false := by
            simp [capReached]
          have hflat : ((p :: ps).map (mkRecord magic)).flatten =
              mkRecord magic p ++ ((ps.map (mkRecord magic)).flatten) := by
            simp
          rw [hflat]
          rw [runStream_step_connect dec magic _ fuel p _ st skips b hm
            (hp32 p (List.mem_cons_self _ _)) hcap hdp]
          rw [processBlock_connect_simple st b (by rw [hbp]; exact hanch)
            horph]
          have hlen2 : st.connected.length + (N + 1) =
              (st.connected ++ [b.hash]).length + N := by
            simp
            omega
          rw [hlen2]
          rw [ih ps bs ⟨st.connected ++ [b.hash], []⟩ skips b.hash fuel
            (fun x hx => hp32 x (List.mem_cons_of_mem _ hx)) hdps hbs
            (by simp) rfl (by simpa using hN) (by omega)]
          simp only [List.take_succ_cons, List.map_cons, List.drop_succ_cons,
            List.append_assoc, List.cons_append, List.nil_append]

/-- Claim C7: with a configured maximum-import-block count `N` and an
input source holding more than `N` connectable blocks (a decodable chain
on top of the connected anchor `g`), the Import Pipeline connects exactly
`N` blocks, transitions to `Done`, and leaves the remaining source data
unread. -/
theorem c7_import_cap (dec : List Nat → Option ImpBlock)
    (magic : List Nat) (g N : Nat) (payloads : List (List Nat))
    (blocks : List ImpBlock)
    (hm : magic.length = 4)
    (hp32 : ∀ p ∈ payloads, p.length < 4294967296)
    (hdec : payloads.map dec = blocks.map some)
    (hchain : chainB g blocks = true)
    (hN : N < payloads.length) :
    ThreadImport dec magic (some N)
        ((payloads.map (mkRecord magic)).flatten) ⟨[g], []⟩ =
      ⟨⟨g :: (blocks.take N).map ImpBlock.hash, []⟩, 0,
        ((payloads.drop N).map (mkRecord magic)).flatten,
        ImportStatus.Done⟩ ∧
      ((blocks.take N).map ImpBlock.hash).length = N := by
  constructor
  · have hfuel : N + 1 ≤ ((payloads.map (mkRecord magic)).flatten).length + 1 := by
      have := mkStream_length_ge magic payloads
      omega
    have hmain := runStream_chain dec magic hm N payloads blocks ⟨[g], []⟩ 0 g
      (((payloads.map (mkRecord magic)).flatten).length + 1) hp32 hdec hchain
      (by simp) rfl (Nat.le_of_lt hN) hfuel
    exact hmain
  · have hlen : payloads.length = blocks.length := by
      have := congrArg List.length hdec
      simpa using this
    simp only [List.length_map, List.length_take]
    omega

/-- Concrete import cap: a two-block chain with a cap of one. -/
theorem c7_import_cap_witness :
    (ThreadImport
        (fun p => match p with | [h, q] => some ⟨h, q⟩ | _ => none)
        [250, 251, 252, 253] (some 1)
        ((([[1, 0], [2, 1]] : List (List Nat)).map
          (mkRecord [250, 251, 252, 253])).flatten) ⟨[0], []⟩ =
      ⟨⟨0 :: (([⟨1, 0⟩, ⟨2, 1⟩] : List ImpBlock).take 1).map ImpBlock.hash,
          []⟩, 0,
        ((([[1, 0], [2, 1]] : List (List Nat)).drop 1).map
          (mkRecord [250, 251, 252, 253])).flatten,
        ImportStatus.Done⟩) ∧
      ((([⟨1, 0⟩, ⟨2, 1⟩] : List ImpBlock).take 1).map ImpBlock.hash).length
        = 1 :=
  c7_import_cap
    (fun p => match p with | [h, q] => some ⟨h, q⟩ | _ => none)
    [250, 251, 252, 253] 0 1 [[1, 0], [2, 1]] [⟨1, 0⟩, ⟨2, 1⟩]
    rfl (by decide) rfl (by decide) (by decide)
